import Mathlib

/-!
Verification of the largest-Lyapunov-exponent estimator
(`largest_lyapunov_exponent` in `src/measures.py`).

The embedding models numpy 1-D float arrays as `List ℝ` (exact real
arithmetic), numpy's elementwise binary operations with their 1-D
broadcasting rule (equal lengths, or either side of length 1; anything
else raises `ValueError`, modelled as `Except.error`), and the
caller-supplied `iterator_func` as a state-threaded function
`Vec → S → Vec × S` so that both pure iterators (`S = Unit`) and
call-counting stub iterators (`S = ℕ`) are expressible.  Stateful
effects of the Python code (the in-place rescaling of the caller's
`initial_perturbation` array, the number of iterator invocations) become
explicit values of the embedding.
-/

namespace DynSys

noncomputable section

/-- A numpy 1-D array of floats, in exact real arithmetic. -/
abbrev Vec := List ℝ

/-- The one runtime error the estimator can raise: numpy's `ValueError`
on incompatibly-shaped operands of an elementwise operation. -/
inductive NpError where
  | shapeMismatch
deriving DecidableEq

/-- Elementwise binary operation on 1-D numpy arrays with numpy's
broadcasting rule: equal lengths operate pointwise; a length-1 operand
is broadcast against the other; any other combination raises. -/
def npBroadcast (op : ℝ → ℝ → ℝ) (a b : Vec) : Except NpError Vec :=
  if a.length = b.length then .ok (List.zipWith op a b)
  else if b.length = 1 then .ok (a.map (fun t => op t b.headI))
  else if a.length = 1 then .ok (b.map (fun t => op a.headI t))
  else .error NpError.shapeMismatch

/-- Numpy elementwise addition of 1-D arrays (line 50 `starting_point +
initial_perturbation`, line 59 `x + dx * (...)`). -/
def npAdd (a b : Vec) : Except NpError Vec :=
  npBroadcast (fun s t => s + t) a b

/-- Numpy elementwise subtraction of 1-D arrays (line 56 `x_pert - x`). -/
def npSub (a b : Vec) : Except NpError Vec :=
  npBroadcast (fun s t => s - t) a b

/-- Embedding of `np.linalg.norm` on a 1-D array: the L2 norm. -/
def npNorm (v : Vec) : ℝ :=
  Real.sqrt ((v.map (fun t => t ^ 2)).sum)

/-- Line 45, `initial_perturbation *= deviation_scale/np.linalg.norm(initial_perturbation)`:
the value held by the perturbation array after the in-place elementwise
rescale.  When the caller supplied the array, this is the value the
caller's own array holds after the call (the array is never written
again afterwards; line 50 only reads it). -/
def rescaledPerturbation (deviation_scale : ℝ) (v : Vec) : Vec :=
  v.map (fun t => t * (deviation_scale / npNorm v))

/-- Lines 53-55, the inner loop `for i_t in range(part_time_steps)`:
each pass calls `iterator_func` on `x`, then on `x_pert`, threading the
iterator's state (a pure iterator ignores it; a counting stub increments
it on every call). -/
def innerSteps {S : Type} (f : Vec → S → Vec × S) :
    ℕ → Vec → Vec → S → Vec × Vec × S
  | 0, x, x_pert, s => (x, x_pert, s)
  | t + 1, x, x_pert, s =>
      let p1 := f x s
      let p2 := f x_pert p1.2
      innerSteps f t p1.1 p2.1 p2.2

/-- Lines 53-59, the body of one renormalization block: advance both
trajectories `part_time_steps` steps, form `dx = x_pert - x`, record
`log(norm_dx / deviation_scale)`, and renormalize
`x_pert = x + dx * (deviation_scale/norm_dx)`.  Returns the recorded
log-divergence with the new `x` and `x_pert` (or the numpy shape error),
alongside the iterator state. -/
def lleBlock {S : Type} (f : Vec → S → Vec × S) (deviation_scale : ℝ)
    (part_time_steps : ℕ) (x x_pert : Vec) (s : S) :
    Except NpError (ℝ × Vec × Vec) × S :=
  let adv := innerSteps f part_time_steps x x_pert s
  match npSub adv.2.1 adv.1 with
  | .error e => (.error e, adv.2.2)
  | .ok dx =>
      let norm_dx := npNorm dx
      match npAdd adv.1 (dx.map (fun u => u * (deviation_scale / norm_dx))) with
      | .error e => (.error e, adv.2.2)
      | .ok x_pert2 =>
          (.ok (Real.log (norm_dx / deviation_scale), adv.1, x_pert2), adv.2.2)

/-- Lines 52-59, the outer loop `for i_n in range(N)`: run `N` blocks,
collecting the entries written into `log_divergence` in order.  A numpy
shape error aborts the loop, as the raised `ValueError` would. -/
def lleLoop {S : Type} (f : Vec → S → Vec × S) (deviation_scale : ℝ)
    (part_time_steps : ℕ) :
    ℕ → Vec → Vec → S → Except NpError (List ℝ × Vec × Vec) × S
  | 0, x, x_pert, s => (.ok ([], x, x_pert), s)
  | n + 1, x, x_pert, s =>
      match lleBlock f deviation_scale part_time_steps x x_pert s with
      | (.error e, s1) => (.error e, s1)
      | (.ok (ld, x1, xp2), s1) =>
          match lleLoop f deviation_scale part_time_steps n x1 xp2 s1 with
          | (.error e, s2) => (.error e, s2)
          | (.ok (lds, xF, xpF), s2) => (.ok (ld :: lds, xF, xpF), s2)

/-- Line 62, `np.cumsum(log_divergence) / (np.arange(1, N + 1) * dt * part_time_steps)`:
entry `k` (0-based) is the sum of the first `k+1` log-divergences divided
by `(k+1) * dt * part_time_steps`. -/
def convergenceOf (log_divergence : List ℝ) (dt : ℝ) (part_time_steps : ℕ) : List ℝ :=
  (List.range log_divergence.length).map (fun k =>
    (log_divergence.take (k + 1)).sum / (((k : ℝ) + 1) * dt * (part_time_steps : ℝ)))

/-- Embedding of `np.average` on a 1-D array: sum divided by length. -/
def averageOf (l : List ℝ) : ℝ := l.sum / (l.length : ℝ)

/-- Embedding of `largest_lyapunov_exponent` (src/measures.py, lines
40-64).  The result is `Sum.inl` of the scalar estimate or `Sum.inr` of
the convergence trace, or the numpy shape error; the iterator state is
returned alongside (it survives a raised error, as a Python stub
object's call counter would). -/
def largest_lyapunov_exponent {S : Type} (iterator_func : Vec → S → Vec × S)
    (starting_point : Vec) (deviation_scale : ℝ) (N : ℕ) (part_time_steps : ℕ)
    (dt : ℝ) (initial_perturbation : Option Vec) (return_convergence : Bool)
    (s : S) : Except NpError (ℝ ⊕ List ℝ) × S :=
  let x_dim := starting_point.length
  let pert0 := initial_perturbation.getD (List.replicate x_dim 1)
  let pert := rescaledPerturbation deviation_scale pert0
  let x := starting_point
  match npAdd x pert with
  | .error e => (.error e, s)
  | .ok x_pert =>
      match lleLoop iterator_func deviation_scale part_time_steps N x x_pert s with
      | (.error e, s1) => (.error e, s1)
      | (.ok (log_divergence, _, _), s1) =>
          if return_convergence then
            (.ok (.inr (convergenceOf log_divergence dt part_time_steps)), s1)
          else
            (.ok (.inl (averageOf log_divergence / (dt * (part_time_steps : ℝ)))), s1)

/-- A pure iterator `x(i+1) = F(x(i))` (the contract of spec section
4.1), lifted to the state-threaded form with trivial state. -/
def pureIter (g : Vec → Vec) : Vec → Unit → Vec × Unit :=
  fun v s => (g v, s)

/-- A call-counting stub iterator: computes like `g` and increments its
invocation counter on every call. -/
def countIter (g : Vec → Vec) : Vec → ℕ → Vec × ℕ :=
  fun v c => (g v, c + 1)

/-- Closed-form per-block state update for a pure iterator: advance both
states `part_time_steps` steps, then renormalize the perturbed state in
the current divergence direction.  One application corresponds to one
pass of the source's outer loop. -/
def blockStep (g : Vec → Vec) (deviation_scale : ℝ) (part_time_steps : ℕ)
    (p : Vec × Vec) : Vec × Vec :=
  let x1 := g^[part_time_steps] p.1
  let xp1 := g^[part_time_steps] p.2
  let dx := List.zipWith (fun a b => a - b) xp1 x1
  (x1, List.zipWith (fun a b => a + b) x1 (dx.map (fun u => u * (deviation_scale / npNorm dx))))

/-- The log-divergence a block records, from the states at the start of
the block: `ln(‖x_pert - x‖₂ / deviation_scale)` measured after both
trajectories have been advanced `part_time_steps` iterator calls. -/
def blockLogDiv (g : Vec → Vec) (deviation_scale : ℝ) (part_time_steps : ℕ)
    (p : Vec × Vec) : ℝ :=
  Real.log (npNorm (List.zipWith (fun a b => a - b)
    (g^[part_time_steps] p.2) (g^[part_time_steps] p.1)) / deviation_scale)

/-- The log-divergence of block `i` (0-based), in closed form from the
initial states of the two trajectories. -/
def specLogDiv (g : Vec → Vec) (deviation_scale : ℝ) (part_time_steps : ℕ)
    (x0 xp0 : Vec) (i : ℕ) : ℝ :=
  blockLogDiv g deviation_scale part_time_steps
    ((blockStep g deviation_scale part_time_steps)^[i] (x0, xp0))

/-- The perturbed trajectory's start `x_pert = starting_point +
perturbation` formed at line 50, with the perturbation resolved (default
all-ones direction when absent) and rescaled as at lines 43-45. -/
def initPerturbed (starting_point : Vec) (deviation_scale : ℝ)
    (initial_perturbation : Option Vec) : Vec :=
  List.zipWith (fun a b => a + b) starting_point
    (rescaledPerturbation deviation_scale
      (initial_perturbation.getD (List.replicate starting_point.length 1)))

/-- The full log-divergence sequence of a run with a pure iterator, in
closed form: entry `i` is the log-divergence of block `i` started from
the initial reference and perturbed states. -/
def specLogList (g : Vec → Vec) (starting_point : Vec) (deviation_scale : ℝ)
    (N part_time_steps : ℕ) (initial_perturbation : Option Vec) : List ℝ :=
  (List.range N).map (fun i =>
    specLogDiv g deviation_scale part_time_steps starting_point
      (initPerturbed starting_point deviation_scale initial_perturbation) i)

/-! Basic facts about the numpy primitives. -/

theorem npAdd_eq_of_length {a b : Vec} (h : a.length = b.length) :
    npAdd a b = .ok (List.zipWith (fun s t => s + t) a b) := by
  simp [npAdd, npBroadcast, h]

theorem npSub_eq_of_length {a b : Vec} (h : a.length = b.length) :
    npSub a b = .ok (List.zipWith (fun s t => s - t) a b) := by
  simp [npSub, npBroadcast, h]

theorem npAdd_error {a b : Vec} (h : a.length ≠ b.length) (hb : b.length ≠ 1)
    (ha : a.length ≠ 1) : npAdd a b = .error NpError.shapeMismatch := by
  simp [npAdd, npBroadcast, h, hb, ha]

theorem npNorm_nonneg (v : Vec) : 0 ≤ npNorm v := Real.sqrt_nonneg _

theorem zipWith_add_sub_cancel :
    ∀ {x p : Vec}, x.length = p.length →
      List.zipWith (fun a b => a - b) (List.zipWith (fun a b => a + b) x p) x = p
  | [], [], _ => rfl
  | a :: x, b :: p, h => by
      simp only [List.zipWith_cons_cons, add_sub_cancel_left, List.cons.injEq, true_and]
      exact zipWith_add_sub_cancel (by simpa using h)
  | [], _ :: _, h => by simp at h
  | _ :: _, [], h => by simp at h

theorem sumsq_map_mul (c : ℝ) (v : Vec) :
    ((v.map (fun t => t * c)).map (fun t => t ^ 2)).sum
      = c ^ 2 * ((v.map (fun t => t ^ 2)).sum) := by
  induction v with
  | nil => simp
  | cons a v ih =>
      simp only [List.map_cons, List.sum_cons, ih]
      ring

theorem npNorm_map_mul (c : ℝ) (v : Vec) :
    npNorm (v.map (fun t => t * c)) = |c| * npNorm v := by
  unfold npNorm
  rw [sumsq_map_mul, Real.sqrt_mul (sq_nonneg c), Real.sqrt_sq_eq_abs]

theorem npNorm_rescaled {δ : ℝ} {v : Vec} (hδ : 0 < δ) (hv : npNorm v ≠ 0) :
    npNorm (rescaledPerturbation δ v) = δ := by
  have hv0 : 0 < npNorm v := lt_of_le_of_ne (npNorm_nonneg v) (Ne.symm hv)
  unfold rescaledPerturbation
  rw [npNorm_map_mul, abs_of_pos (div_pos hδ hv0), div_mul_cancel₀ _ hv]

theorem length_rescaled (δ : ℝ) (v : Vec) :
    (rescaledPerturbation δ v).length = v.length := List.length_map _ _

theorem npNorm_zero_of_all_zero {v : Vec} (h : ∀ t ∈ v, t = 0) : npNorm v = 0 := by
  unfold npNorm
  rw [List.sum_eq_zero, Real.sqrt_zero]
  intro x hx
  obtain ⟨t, ht, rfl⟩ := List.mem_map.1 hx
  rw [h t ht]
  ring

theorem npNorm_self_sub (w : Vec) :
    npNorm (List.zipWith (fun a b => a - b) w w) = 0 := by
  apply npNorm_zero_of_all_zero
  intro t ht
  rw [List.zipWith_same] at ht
  obtain ⟨a, _, rfl⟩ := List.mem_map.1 ht
  exact sub_self a

/-! Characterization of the inner loop for pure and counting iterators. -/

theorem innerSteps_pure (g : Vec → Vec) :
    ∀ (T : ℕ) (x xp : Vec) (u : Unit),
      innerSteps (pureIter g) T x xp u = (g^[T] x, g^[T] xp, u) := by
  intro T
  induction T with
  | zero => intro x xp u; simp [innerSteps]
  | succ t ih =>
      intro x xp u
      simp only [innerSteps, pureIter, ih, Function.iterate_succ_apply]

theorem innerSteps_count (g : Vec → Vec) :
    ∀ (T : ℕ) (x xp : Vec) (c : ℕ),
      innerSteps (countIter g) T x xp c = (g^[T] x, g^[T] xp, c + 2 * T) := by
  intro T
  induction T with
  | zero => intro x xp c; simp [innerSteps]
  | succ t ih =>
      intro x xp c
      simp only [innerSteps, countIter, ih, Function.iterate_succ_apply, Prod.mk.injEq]
      exact ⟨trivial, trivial, by omega⟩

theorem length_iterate {g : Vec → Vec} (hg : ∀ u, (g u).length = u.length) :
    ∀ (T : ℕ) (x : Vec), (g^[T] x).length = x.length := by
  intro T
  induction T with
  | zero => intro x; rfl
  | succ t ih => intro x; rw [Function.iterate_succ_apply, ih, hg]

/-! Characterization of one block and of the outer loop. -/

theorem blockStep_fst_length {g : Vec → Vec} (hg : ∀ u, (g u).length = u.length)
    (δ : ℝ) (T : ℕ) {x xp : Vec} :
    (blockStep g δ T (x, xp)).1.length = x.length := by
  simp [blockStep, length_iterate hg]

theorem blockStep_snd_length {g : Vec → Vec} (hg : ∀ u, (g u).length = u.length)
    (δ : ℝ) (T : ℕ) {x xp : Vec} (h : xp.length = x.length) :
    (blockStep g δ T (x, xp)).2.length = x.length := by
  simp [blockStep, length_iterate hg, h]

theorem blockStep_iterate_length {g : Vec → Vec} (hg : ∀ u, (g u).length = u.length)
    (δ : ℝ) (T : ℕ) {x xp : Vec} (h : xp.length = x.length) :
    ∀ i : ℕ, ((blockStep g δ T)^[i] (x, xp)).1.length = x.length ∧
      ((blockStep g δ T)^[i] (x, xp)).2.length = x.length := by
  intro i
  induction i with
  | zero => exact ⟨rfl, h⟩
  | succ i ih =>
      rw [Function.iterate_succ_apply']
      obtain ⟨h1, h2⟩ := ih
      set p := (blockStep g δ T)^[i] (x, xp)
      have hp : p = (p.1, p.2) := rfl
      rw [hp]
      constructor
      · rw [blockStep_fst_length hg δ T, h1]
      · rw [blockStep_snd_length hg δ T (by rw [h1, h2]), h1]

theorem range_map_iterate_shift {α β : Type} (F : α → α) (G : α → β) (n : ℕ) (p : α) :
    (List.range (n + 1)).map (fun i => G (F^[i] p))
      = G p :: (List.range n).map (fun i => G (F^[i] (F p))) := by
  rw [List.range_succ_eq_map, List.map_cons, List.map_map]
  refine congrArg₂ _ (by simp) (List.map_congr_left ?_)
  intro i _
  simp only [Function.comp_apply, Function.iterate_succ_apply]

theorem lleBlock_pure {g : Vec → Vec} (hg : ∀ u, (g u).length = u.length)
    (δ : ℝ) (T : ℕ) {x xp : Vec} (h : xp.length = x.length) (u : Unit) :
    lleBlock (pureIter g) δ T x xp u =
      (.ok (blockLogDiv g δ T (x, xp), (blockStep g δ T (x, xp)).1,
        (blockStep g δ T (x, xp)).2), u) := by
  have hlen : (g^[T] xp).length = (g^[T] x).length := by
    rw [length_iterate hg, length_iterate hg, h]
  have hsub : npSub (g^[T] xp) (g^[T] x)
      = .ok (List.zipWith (fun s t => s - t) (g^[T] xp) (g^[T] x)) :=
    npSub_eq_of_length hlen
  have hadd : npAdd (g^[T] x)
      ((List.zipWith (fun s t => s - t) (g^[T] xp) (g^[T] x)).map
        (fun u => u * (δ / npNorm (List.zipWith (fun s t => s - t) (g^[T] xp) (g^[T] x)))))
      = .ok (List.zipWith (fun s t => s + t) (g^[T] x)
        ((List.zipWith (fun s t => s - t) (g^[T] xp) (g^[T] x)).map
          (fun u => u * (δ / npNorm (List.zipWith (fun s t => s - t) (g^[T] xp) (g^[T] x)))))) :=
    npAdd_eq_of_length (by rw [List.length_map, List.length_zipWith, hlen, min_self])
  simp only [lleBlock, innerSteps_pure, hsub, hadd]
  rfl

theorem lleBlock_count {g : Vec → Vec} (hg : ∀ u, (g u).length = u.length)
    (δ : ℝ) (T : ℕ) {x xp : Vec} (h : xp.length = x.length) (c : ℕ) :
    lleBlock (countIter g) δ T x xp c =
      (.ok (blockLogDiv g δ T (x, xp), (blockStep g δ T (x, xp)).1,
        (blockStep g δ T (x, xp)).2), c + 2 * T) := by
  have hlen : (g^[T] xp).length = (g^[T] x).length := by
    rw [length_iterate hg, length_iterate hg, h]
  have hsub : npSub (g^[T] xp) (g^[T] x)
      = .ok (List.zipWith (fun s t => s - t) (g^[T] xp) (g^[T] x)) :=
    npSub_eq_of_length hlen
  have hadd : npAdd (g^[T] x)
      ((List.zipWith (fun s t => s - t) (g^[T] xp) (g^[T] x)).map
        (fun u => u * (δ / npNorm (List.zipWith (fun s t => s - t) (g^[T] xp) (g^[T] x)))))
      = .ok (List.zipWith (fun s t => s + t) (g^[T] x)
        ((List.zipWith (fun s t => s - t) (g^[T] xp) (g^[T] x)).map
          (fun u => u * (δ / npNorm (List.zipWith (fun s t => s - t) (g^[T] xp) (g^[T] x)))))) :=
    npAdd_eq_of_length (by rw [List.length_map, List.length_zipWith, hlen, min_self])
  simp only [lleBlock, innerSteps_count, hsub, hadd]
  rfl

theorem lleLoop_pure {g : Vec → Vec} (hg : ∀ u, (g u).length = u.length)
    (δ : ℝ) (T : ℕ) :
    ∀ (n : ℕ) {x xp : Vec} (u : Unit), xp.length = x.length →
      lleLoop (pureIter g) δ T n x xp u =
        (.ok ((List.range n).map (fun i => blockLogDiv g δ T ((blockStep g δ T)^[i] (x, xp))),
          ((blockStep g δ T)^[n] (x, xp)).1,
          ((blockStep g δ T)^[n] (x, xp)).2), u) := by
  intro n
  induction n with
  | zero => intro x xp u h; simp [lleLoop]
  | succ n ih =>
      intro x xp u h
      have hnext : (blockStep g δ T (x, xp)).2.length = (blockStep g δ T (x, xp)).1.length := by
        rw [blockStep_fst_length hg δ T, blockStep_snd_length hg δ T h]
      simp only [lleLoop, lleBlock_pure hg δ T h, ih u hnext]
      rw [range_map_iterate_shift (blockStep g δ T) (blockLogDiv g δ T) n (x, xp)]
      rfl

theorem lleLoop_count {g : Vec → Vec} (hg : ∀ u, (g u).length = u.length)
    (δ : ℝ) (T : ℕ) :
    ∀ (n : ℕ) {x xp : Vec} (c : ℕ), xp.length = x.length →
      lleLoop (countIter g) δ T n x xp c =
        (.ok ((List.range n).map (fun i => blockLogDiv g δ T ((blockStep g δ T)^[i] (x, xp))),
          ((blockStep g δ T)^[n] (x, xp)).1,
          ((blockStep g δ T)^[n] (x, xp)).2), c + 2 * n * T) := by
  intro n
  induction n with
  | zero => intro x xp c h; simp [lleLoop]
  | succ n ih =>
      intro x xp c h
      have hnext : (blockStep g δ T (x, xp)).2.length = (blockStep g δ T (x, xp)).1.length := by
        rw [blockStep_fst_length hg δ T, blockStep_snd_length hg δ T h]
      have hc : c + 2 * T + 2 * n * T = c + 2 * (n + 1) * T := by ring
      simp only [lleLoop, lleBlock_count hg δ T h, ih (c + 2 * T) hnext]
      rw [range_map_iterate_shift (blockStep g δ T) (blockLogDiv g δ T) n (x, xp), hc]
      rfl

/-! Characterization of the whole estimator for pure and counting iterators. -/

theorem lle_pure {g : Vec → Vec} {sp : Vec} {δ dt : ℝ} {N T : ℕ} {ip : Option Vec}
    {rc : Bool} (hg : ∀ u, (g u).length = u.length)
    (hip : ∀ w, ip = some w → w.length = sp.length) (u : Unit) :
    largest_lyapunov_exponent (pureIter g) sp δ N T dt ip rc u =
      (.ok (if rc then .inr (convergenceOf (specLogList g sp δ N T ip) dt T)
            else .inl (averageOf (specLogList g sp δ N T ip) / (dt * (T : ℝ)))), u) := by
  have hp0 : (ip.getD (List.replicate sp.length 1)).length = sp.length := by
    cases ip with
    | none => simp
    | some w => simpa using hip w rfl
  have hadd : npAdd sp (rescaledPerturbation δ (ip.getD (List.replicate sp.length 1)))
      = .ok (initPerturbed sp δ ip) := by
    rw [npAdd_eq_of_length (by rw [length_rescaled, hp0])]
    rfl
  have hxp : (initPerturbed sp δ ip).length = sp.length := by
    unfold initPerturbed
    rw [List.length_zipWith, length_rescaled, hp0, min_self]
  simp only [largest_lyapunov_exponent, hadd, lleLoop_pure hg δ T N u hxp]
  cases rc <;> rfl

theorem lle_count {g : Vec → Vec} {sp : Vec} {δ dt : ℝ} {N T : ℕ} {ip : Option Vec}
    {rc : Bool} (hg : ∀ u, (g u).length = u.length)
    (hip : ∀ w, ip = some w → w.length = sp.length) (c : ℕ) :
    largest_lyapunov_exponent (countIter g) sp δ N T dt ip rc c =
      (.ok (if rc then .inr (convergenceOf (specLogList g sp δ N T ip) dt T)
            else .inl (averageOf (specLogList g sp δ N T ip) / (dt * (T : ℝ)))), c + 2 * N * T) := by
  have hp0 : (ip.getD (List.replicate sp.length 1)).length = sp.length := by
    cases ip with
    | none => simp
    | some w => simpa using hip w rfl
  have hadd : npAdd sp (rescaledPerturbation δ (ip.getD (List.replicate sp.length 1)))
      = .ok (initPerturbed sp δ ip) := by
    rw [npAdd_eq_of_length (by rw [length_rescaled, hp0])]
    rfl
  have hxp : (initPerturbed sp δ ip).length = sp.length := by
    unfold initPerturbed
    rw [List.length_zipWith, length_rescaled, hp0, min_self]
  simp only [largest_lyapunov_exponent, hadd, lleLoop_count hg δ T N c hxp]
  cases rc <;> rfl

/-! Helper lemmas for the perturbation-level claims. -/

theorem rescaledPerturbation_smul {c : ℝ} (hc : 0 < c) (δ : ℝ) (v : Vec) :
    rescaledPerturbation δ (v.map (fun t => c * t)) = rescaledPerturbation δ v := by
  have hnorm : npNorm (v.map (fun t => c * t)) = c * npNorm v := by
    have hswap : v.map (fun t => c * t) = v.map (fun t => t * c) := by
      simp [mul_comm]
    rw [hswap, npNorm_map_mul, abs_of_pos hc]
  unfold rescaledPerturbation
  rw [List.map_map, hnorm]
  refine List.map_congr_left ?_
  intro t _
  simp only [Function.comp_apply]
  by_cases h : npNorm v = 0
  · simp [h]
  · field_simp
    ring

theorem map_eq_self {f : ℝ → ℝ} :
    ∀ {v : Vec}, v.map f = v → ∀ t ∈ v, f t = t := by
  intro v
  induction v with
  | nil => intro _ t ht; simp at ht
  | cons a v ih =>
      intro h t ht
      rw [List.map_cons] at h
      injection h with h1 h2
      rcases List.mem_cons.1 ht with rfl | ht2
      · exact h1
      · exact ih h2 t ht2

theorem exists_ne_zero_of_npNorm {v : Vec} (h : npNorm v ≠ 0) :
    ∃ t ∈ v, t ≠ 0 := by
  by_contra hc
  push_neg at hc
  exact h (npNorm_zero_of_all_zero hc)

/-- C5: the caller-owned `initial_perturbation` array is overwritten in
place by line 45; after the call it holds the original vector rescaled
entrywise by `deviation_scale / (its original L2 norm)`, and (whenever
that factor is not 1, i.e. `deviation_scale ≠ ‖v‖`) no longer holds its
original values.  The in-place store is modelled by its stored value
`rescaledPerturbation`, which the code never writes again after line 45. -/
theorem claim5_inplace_rescale {δ : ℝ} {v : Vec} (h0 : npNorm v ≠ 0)
    (h1 : δ ≠ npNorm v) :
    (∀ i : ℕ, (rescaledPerturbation δ v)[i]?
        = (v[i]?).map (fun t => t * (δ / npNorm v)))
    ∧ rescaledPerturbation δ v ≠ v := by
  constructor
  · intro i
    simp [rescaledPerturbation]
  · intro hEq
    obtain ⟨t, htv, ht0⟩ := exists_ne_zero_of_npNorm h0
    have hfix : t * (δ / npNorm v) = t := map_eq_self hEq t htv
    have hfac : δ / npNorm v = 1 := by
      have h2 : t * (δ / npNorm v) = t * 1 := by rw [mul_one]; exact hfix
      exact mul_left_cancel₀ ht0 h2
    have : δ = 1 * npNorm v := (div_eq_iff h0).1 hfac
    rw [one_mul] at this
    exact h1 this

/-- C5 witness at `v = [1]`, `deviation_scale = 2`. -/
theorem claim5_witness :
    npNorm [(1:ℝ)] ≠ 0 ∧ (2:ℝ) ≠ npNorm [(1:ℝ)]
    ∧ ((∀ i : ℕ, (rescaledPerturbation 2 [(1:ℝ)])[i]?
          = (([(1:ℝ)])[i]?).map (fun t => t * (2 / npNorm [(1:ℝ)])))
        ∧ rescaledPerturbation 2 [(1:ℝ)] ≠ [1]) := by
  have h0 : npNorm [(1:ℝ)] ≠ 0 := by norm_num [npNorm]
  have h1 : (2:ℝ) ≠ npNorm [(1:ℝ)] := by norm_num [npNorm]
  exact ⟨h0, h1, claim5_inplace_rescale h0 h1⟩

/-- C6: the perturbation magnitude invariant.  With `deviation_scale > 0`:
immediately after initialization (line 50 forms `x_pert = x + pert` with
`pert` the rescaled direction, line 45), the divergence `x_pert - x`
exists and has L2 norm exactly `deviation_scale`; and immediately after
the renormalization `x_pert = x + dx * (deviation_scale / norm_dx)` at
line 59 of any block (the exact expression `lleBlock` computes), the new
divergence again has L2 norm exactly `deviation_scale`, provided
`norm_dx ≠ 0`. -/
theorem claim6_norm_invariant {δ : ℝ} (hδ : 0 < δ) :
    (∀ x v : Vec, v.length = x.length → npNorm v ≠ 0 →
      npSub (List.zipWith (fun a b => a + b) x (rescaledPerturbation δ v)) x
          = .ok (rescaledPerturbation δ v)
        ∧ npNorm (rescaledPerturbation δ v) = δ)
    ∧ (∀ x1 dx : Vec, dx.length = x1.length → npNorm dx ≠ 0 →
      npSub (List.zipWith (fun a b => a + b) x1
            (dx.map (fun u => u * (δ / npNorm dx)))) x1
          = .ok (dx.map (fun u => u * (δ / npNorm dx)))
        ∧ npNorm (dx.map (fun u => u * (δ / npNorm dx))) = δ) := by
  constructor
  · intro x v hl hv
    have hp : x.length = (rescaledPerturbation δ v).length := by
      rw [length_rescaled, hl]
    refine ⟨?_, npNorm_rescaled hδ hv⟩
    rw [npSub_eq_of_length (by rw [List.length_zipWith, ← hp, min_self])]
    rw [zipWith_add_sub_cancel hp]
  · intro x1 dx hl hdx
    have hp : x1.length = (dx.map (fun u => u * (δ / npNorm dx))).length := by
      rw [List.length_map, hl]
    constructor
    · rw [npSub_eq_of_length (by rw [List.length_zipWith, ← hp, min_self])]
      rw [zipWith_add_sub_cancel hp]
    · show npNorm (rescaledPerturbation δ dx) = δ
      exact npNorm_rescaled hδ hdx

/-- C6 witness at `x = [0]`, `v = [1]`, `deviation_scale = 1`. -/
theorem claim6_witness :
    (0:ℝ) < 1
    ∧ (npSub (List.zipWith (fun a b => a + b) [(0:ℝ)] (rescaledPerturbation 1 [1])) [0]
        = .ok (rescaledPerturbation 1 [1])
      ∧ npNorm (rescaledPerturbation 1 [(1:ℝ)]) = 1) := by
  refine ⟨one_pos, (claim6_norm_invariant one_pos).1 [0] [1] rfl ?_⟩
  norm_num [npNorm]

/-- C9: scale invariance of the initial perturbation direction.  For any
iterator (pure or stateful), any starting point and any positive real
`c`, calling the estimator with `c * v` as perturbation produces exactly
the same output, scalar or sequence, as calling it with `v`. -/
theorem claim9_scale_invariance {S : Type} (f : Vec → S → Vec × S) (sp v : Vec)
    (δ : ℝ) (N T : ℕ) (dt : ℝ) (rc : Bool) (s : S) {c : ℝ} (hc : 0 < c) :
    largest_lyapunov_exponent f sp δ N T dt (some (v.map (fun t => c * t))) rc s
      = largest_lyapunov_exponent f sp δ N T dt (some v) rc s := by
  simp only [largest_lyapunov_exponent, Option.getD_some,
    rescaledPerturbation_smul hc δ v]

/-- C9 witness at `c = 2`, `v = [1]`. -/
theorem claim9_witness :
    (0:ℝ) < 2
    ∧ largest_lyapunov_exponent (pureIter id) [(0:ℝ)] 1 1 1 1
        (some ([(1:ℝ)].map (fun t => 2 * t))) false ()
      = largest_lyapunov_exponent (pureIter id) [(0:ℝ)] 1 1 1 1 (some [1]) false () :=
  ⟨by norm_num,
    claim9_scale_invariance (pureIter id) [0] [1] 1 1 1 1 false () (by norm_num)⟩

/-- C10: when `initial_perturbation` is absent the direction defaults to
the all-ones vector of dimension `D = starting_point.length`: the call
computes exactly what an explicit call with the all-ones perturbation
computes; the rescaled default perturbation is the constant vector
`deviation_scale / sqrt D`; and the perturbed trajectory therefore
starts at `starting_point + ones(D) * (deviation_scale / sqrt D)`. -/
theorem claim10_default_ones {S : Type} (f : Vec → S → Vec × S) (sp : Vec)
    (δ : ℝ) (N T : ℕ) (dt : ℝ) (rc : Bool) (s : S) :
    largest_lyapunov_exponent f sp δ N T dt none rc s
        = largest_lyapunov_exponent f sp δ N T dt
            (some (List.replicate sp.length 1)) rc s
    ∧ rescaledPerturbation δ (List.replicate sp.length 1)
        = List.replicate sp.length (δ / Real.sqrt sp.length)
    ∧ npAdd sp (rescaledPerturbation δ (List.replicate sp.length 1))
        = .ok (List.zipWith (fun a b => a + b) sp
            (List.replicate sp.length (δ / Real.sqrt sp.length))) := by
  have hnorm : npNorm (List.replicate sp.length (1:ℝ)) = Real.sqrt sp.length := by
    simp [npNorm, List.map_replicate, List.sum_replicate, nsmul_eq_mul]
  have hres : rescaledPerturbation δ (List.replicate sp.length 1)
      = List.replicate sp.length (δ / Real.sqrt sp.length) := by
    unfold rescaledPerturbation
    rw [hnorm, List.map_replicate, one_mul]
  refine ⟨?_, hres, ?_⟩
  · simp only [largest_lyapunov_exponent, Option.getD_none, Option.getD_some]
  · rw [npAdd_eq_of_length (by rw [length_rescaled, List.length_replicate]), hres]

/-! Const-iterator lemmas: when the iterator maps every state to the
same point `w`, both trajectories coincide at the end of every block and
every recorded log-divergence is the unguarded `log (0 / deviation_scale)`. -/

theorem const_iterate {w : Vec} {T : ℕ} (hT : 1 ≤ T) (x : Vec) :
    (fun _ : Vec => w)^[T] x = w := by
  obtain ⟨t, rfl⟩ : ∃ t, T = t + 1 := ⟨T - 1, by omega⟩
  rw [Function.iterate_succ_apply']

theorem lleBlock_const {w : Vec} (δ : ℝ) {T : ℕ} (hT : 1 ≤ T) (x xp : Vec) (u : Unit) :
    ∃ xp2 : Vec, lleBlock (pureIter (fun _ => w)) δ T x xp u
      = (.ok (Real.log (0 / δ), w, xp2), u) := by
  have hsub : npSub w w = .ok (List.zipWith (fun s t => s - t) w w) :=
    npSub_eq_of_length rfl
  have hadd : npAdd w ((List.zipWith (fun s t => s - t) w w).map
      (fun u => u * (δ / npNorm (List.zipWith (fun s t => s - t) w w))))
      = .ok (List.zipWith (fun s t => s + t) w
        ((List.zipWith (fun s t => s - t) w w).map
          (fun u => u * (δ / npNorm (List.zipWith (fun s t => s - t) w w))))) :=
    npAdd_eq_of_length (by rw [List.length_map, List.length_zipWith, min_self])
  refine ⟨List.zipWith (fun s t => s + t) w
    ((List.zipWith (fun s t => s - t) w w).map
      (fun u => u * (δ / npNorm (List.zipWith (fun s t => s - t) w w)))), ?_⟩
  simp only [lleBlock, innerSteps_pure, const_iterate hT, hsub, hadd]
  rw [npNorm_self_sub]

theorem lleLoop_const {w : Vec} (δ : ℝ) {T : ℕ} (hT : 1 ≤ T) :
    ∀ (n : ℕ) (x xp : Vec) (u : Unit),
      ∃ q : Vec × Vec, lleLoop (pureIter (fun _ => w)) δ T n x xp u
        = (.ok (List.replicate n (Real.log (0 / δ)), q.1, q.2), u) := by
  intro n
  induction n with
  | zero => intro x xp u; exact ⟨(x, xp), rfl⟩
  | succ n ih =>
      intro x xp u
      obtain ⟨xp2, hb⟩ := lleBlock_const (w := w) δ hT x xp u
      obtain ⟨q, hl⟩ := ih w xp2 u
      refine ⟨q, ?_⟩
      simp only [lleLoop, hb, hl, List.replicate_succ]

/-! The claims about the loop-level behavior. -/

/-- C1: in convergence mode, for every valid input (matching dimensions,
pure length-preserving iterator, positive `deviation_scale`,
`part_time_steps ≥ 1`, and `1 ≤ k ≤ N`), the k-th entry of the returned
sequence equals the sum of the first `k` log-divergences divided by
`k * dt * part_time_steps`, where the log-divergence of block `i`
(`specLogDiv`) is `ln(‖x_pert - x‖₂ / deviation_scale)` measured after
both trajectories have been advanced `part_time_steps` iterator calls in
that block. -/
theorem claim1_convergence_entries {g : Vec → Vec} {sp : Vec} {δ dt : ℝ}
    {N T k : ℕ} {ip : Option Vec}
    (hg : ∀ u, (g u).length = u.length)
    (hip : ∀ w, ip = some w → w.length = sp.length)
    (_hδ : 0 < δ) (_hT : 1 ≤ T) (hk1 : 1 ≤ k) (hkN : k ≤ N) :
    ∃ out : List ℝ,
      (largest_lyapunov_exponent (pureIter g) sp δ N T dt ip true ()).1
          = .ok (.inr out)
      ∧ out.length = N
      ∧ out[k - 1]? = some (((List.range k).map
            (specLogDiv g δ T sp (initPerturbed sp δ ip))).sum
          / ((k : ℝ) * dt * (T : ℝ))) := by
  have hlds : (specLogList g sp δ N T ip).length = N := by
    simp [specLogList]
  refine ⟨convergenceOf (specLogList g sp δ N T ip) dt T, ?_, ?_, ?_⟩
  · rw [lle_pure hg hip ()]
    rfl
  · simp [convergenceOf, hlds]
  · have hklt : k - 1 < N := by omega
    unfold convergenceOf
    rw [hlds]
    rw [List.getElem?_map, List.getElem?_range hklt, Option.map_some']
    have hk : k - 1 + 1 = k := by omega
    rw [hk]
    have htake : (specLogList g sp δ N T ip).take k
        = (List.range k).map (specLogDiv g δ T sp (initPerturbed sp δ ip)) := by
      unfold specLogList
      rw [← List.map_take, List.take_range, min_eq_left hkN]
    rw [htake]
    have hcast : ((k - 1 : ℕ) : ℝ) + 1 = (k : ℝ) := by
      rw [Nat.cast_sub hk1]
      norm_num
    rw [hcast]

/-- C1 witness at the identity iterator in dimension 1, `N = T = k = 1`. -/
theorem claim1_witness :
    ∃ out : List ℝ,
      (largest_lyapunov_exponent (pureIter id) [(0:ℝ)] 1 1 1 1 (some [1]) true ()).1
          = .ok (.inr out)
      ∧ out.length = 1
      ∧ out[1 - 1]? = some (((List.range 1).map
            (specLogDiv id 1 1 [(0:ℝ)] (initPerturbed [(0:ℝ)] 1 (some [1])))).sum
          / (((1:ℕ) : ℝ) * 1 * ((1:ℕ) : ℝ))) :=
  claim1_convergence_entries (g := id) (fun u => rfl)
    (fun w hw => by cases hw; rfl) one_pos le_rfl le_rfl le_rfl

/-- C2: for every valid input, the scalar-mode output equals the last
element of the convergence-mode output on the same inputs. -/
theorem claim2_scalar_is_last {g : Vec → Vec} {sp : Vec} {δ dt : ℝ} {N T : ℕ}
    {ip : Option Vec}
    (hg : ∀ u, (g u).length = u.length)
    (hip : ∀ w, ip = some w → w.length = sp.length)
    (_hδ : 0 < δ) (hN : 1 ≤ N) (_hT : 1 ≤ T) :
    ∃ (r : ℝ) (out : List ℝ),
      (largest_lyapunov_exponent (pureIter g) sp δ N T dt ip false ()).1 = .ok (.inl r)
      ∧ (largest_lyapunov_exponent (pureIter g) sp δ N T dt ip true ()).1 = .ok (.inr out)
      ∧ out.getLast? = some r := by
  have hlds : (specLogList g sp δ N T ip).length = N := by
    simp [specLogList]
  refine ⟨averageOf (specLogList g sp δ N T ip) / (dt * (T : ℝ)),
      convergenceOf (specLogList g sp δ N T ip) dt T, ?_, ?_, ?_⟩
  · rw [lle_pure hg hip ()]
    rfl
  · rw [lle_pure hg hip ()]
    rfl
  · have hout : (convergenceOf (specLogList g sp δ N T ip) dt T).length = N := by
      simp [convergenceOf, hlds]
    rw [List.getLast?_eq_getElem?, hout]
    have hlt : N - 1 < N := by omega
    unfold convergenceOf
    rw [hlds]
    rw [List.getElem?_map, List.getElem?_range hlt, Option.map_some']
    have hN1 : N - 1 + 1 = N := by omega
    rw [hN1]
    have htake : (specLogList g sp δ N T ip).take N = specLogList g sp δ N T ip :=
      List.take_of_length_le (by rw [hlds])
    rw [htake]
    have hcast : ((N - 1 : ℕ) : ℝ) + 1 = (N : ℝ) := by
      rw [Nat.cast_sub hN]
      norm_num
    rw [hcast]
    unfold averageOf
    rw [hlds, div_div, ← mul_assoc]

/-- C2 witness at the identity iterator in dimension 1, `N = T = 1`. -/
theorem claim2_witness :
    ∃ (r : ℝ) (out : List ℝ),
      (largest_lyapunov_exponent (pureIter id) [(0:ℝ)] 1 1 1 1 (some [1]) false ()).1
          = .ok (.inl r)
      ∧ (largest_lyapunov_exponent (pureIter id) [(0:ℝ)] 1 1 1 1 (some [1]) true ()).1
          = .ok (.inr out)
      ∧ out.getLast? = some r :=
  claim2_scalar_is_last (g := id) (fun u => rfl)
    (fun w hw => by cases hw; rfl) one_pos le_rfl le_rfl

/-- C7: for every valid input, one invocation calls the iterator exactly
`2 * N * part_time_steps` times, as observed by a call-counting iterator
started at 0. -/
theorem claim7_call_count {g : Vec → Vec} {sp : Vec} {δ dt : ℝ} {N T : ℕ}
    {ip : Option Vec} {rc : Bool}
    (hg : ∀ u, (g u).length = u.length)
    (hip : ∀ w, ip = some w → w.length = sp.length)
    (_hδ : 0 < δ) (_hN : 1 ≤ N) (_hT : 1 ≤ T) :
    (largest_lyapunov_exponent (countIter g) sp δ N T dt ip rc 0).2 = 2 * N * T := by
  rw [lle_count hg hip 0]
  show 0 + 2 * N * T = 2 * N * T
  omega

/-- C7 witness at the identity iterator, `N = 2`, `T = 3`: 12 calls. -/
theorem claim7_witness :
    (largest_lyapunov_exponent (countIter id) [(1:ℝ)] 1 2 3 1 none false 0).2
      = 2 * 2 * 3 :=
  claim7_call_count (g := id) (fun u => rfl) (fun w hw => by cases hw)
    one_pos (by norm_num) (by norm_num)

/-- C8: if the divergence norm is exactly zero at the end of the blocks
(here forced by a constant iterator, which collapses both trajectories to
the same point `w` whenever `part_time_steps ≥ 1`), the call does not
abort or raise: it returns a full length-`N` sequence, and every recorded
log-divergence is the unguarded degenerate value `log (0 / deviation_scale)`
(numpy: `-inf`, or `nan` when the scale is 0), with the division by the
zero norm in the renormalization equally unguarded. -/
theorem claim8_zero_norm_propagates {w sp v : Vec} {δ dt : ℝ} {N T : ℕ}
    (hv : v.length = sp.length) (hT : 1 ≤ T) :
    ∃ lds : List ℝ,
      (largest_lyapunov_exponent (pureIter (fun _ => w)) sp δ N T dt (some v) true ()).1
          = .ok (.inr (convergenceOf lds dt T))
      ∧ lds.length = N
      ∧ ∀ i, i < N → lds[i]? = some (Real.log (0 / δ)) := by
  refine ⟨List.replicate N (Real.log (0 / δ)), ?_, by simp, ?_⟩
  · have hadd : npAdd sp (rescaledPerturbation δ v)
        = .ok (List.zipWith (fun s t => s + t) sp (rescaledPerturbation δ v)) :=
      npAdd_eq_of_length (by rw [length_rescaled, hv])
    obtain ⟨q, hl⟩ := lleLoop_const (w := w) δ hT N sp
      (List.zipWith (fun s t => s + t) sp (rescaledPerturbation δ v)) ()
    simp only [largest_lyapunov_exponent, Option.getD_some, hadd, hl]
    rfl
  · intro i hi
    simp [hi]

/-- C8 witness: constant iterator to `[5]`, dimension 1, `N = T = 1`. -/
theorem claim8_witness :
    ∃ lds : List ℝ,
      (largest_lyapunov_exponent (pureIter (fun _ => [(5:ℝ)])) [(0:ℝ)] 1 1 1 1
          (some [1]) true ()).1
        = .ok (.inr (convergenceOf lds 1 1))
      ∧ lds.length = 1
      ∧ ∀ i, i < 1 → lds[i]? = some (Real.log (0 / 1)) :=
  claim8_zero_norm_propagates rfl le_rfl

/-- C3 counterexample: with the invalid configuration
`deviation_scale = 0` (and `N = part_time_steps = 1`), the call is not
rejected, refuting each part of the claim at this concrete input: the
full evaluation shows the call returns the scalar result
`Except.ok (Sum.inl 0)` (the exact-real rendering of numpy's `nan` from
`log(0/0)`, a produced result rather than an absent one) with the
call-counting iterator at 2; hence the result is not an error, and the
iterator was invoked 2 times, not the 0 times the claim demands. -/
theorem claim3_counterexample :
    largest_lyapunov_exponent (countIter id) [(1:ℝ)] 0 1 1 1 none false 0
      = (.ok (.inl 0), 2)
    ∧ (largest_lyapunov_exponent (countIter id) [(1:ℝ)] 0 1 1 1 none false 0).1
        ≠ .error NpError.shapeMismatch
    ∧ (largest_lyapunov_exponent (countIter id) [(1:ℝ)] 0 1 1 1 none false 0).2 ≠ 0 := by
  have h : largest_lyapunov_exponent (countIter id) [(1:ℝ)] 0 1 1 1 none false 0
      = (.ok (.inl 0), 2) := by
    rw [lle_count (g := id) (fun u => rfl) (fun w hw => by cases hw) 0]
    simp only [Bool.false_eq_true, if_false]
    have h1 : specLogList id [(1:ℝ)] 0 1 1 none = [0] := by
      simp [specLogList, specLogDiv, blockLogDiv, blockStep, initPerturbed,
        rescaledPerturbation, npNorm, List.range_succ]
    rw [h1]
    norm_num [averageOf]
  refine ⟨h, ?_, ?_⟩
  · rw [h]
    simp
  · rw [h]
    simp

/-- C3 amended: the estimator performs no configuration validation at
all.  For every `deviation_scale` (including 0 and negative values) and
every `N` and `part_time_steps` (including 0), as long as the shapes are
compatible, the call is never rejected: it returns an `Except.ok`
result, and the iterator is invoked exactly `2 * N * part_time_steps`
times.  In particular a non-positive `deviation_scale` does not prevent
the full `2 * N * part_time_steps` iterator calls, and `N = 0` or
`part_time_steps = 0` yields zero iterator calls only because the loops
are vacuous, while still producing a (degenerate) result rather than an
error. -/
theorem claim3_amended_no_validation {g : Vec → Vec} {sp : Vec} {δ dt : ℝ}
    {N T : ℕ} {ip : Option Vec} {rc : Bool} (c : ℕ)
    (hg : ∀ u, (g u).length = u.length)
    (hip : ∀ w, ip = some w → w.length = sp.length) :
    ∃ r : ℝ ⊕ List ℝ,
      largest_lyapunov_exponent (countIter g) sp δ N T dt ip rc c
        = (.ok r, c + 2 * N * T) :=
  ⟨_, lle_count hg hip c⟩

/-- C3 amended witness at `deviation_scale = 0`, `N = part_time_steps = 1`. -/
theorem claim3_amended_witness :
    ∃ r : ℝ ⊕ List ℝ,
      largest_lyapunov_exponent (countIter id) [(1:ℝ)] 0 1 1 1 none false 0
        = (.ok r, 0 + 2 * 1 * 1) :=
  claim3_amended_no_validation (g := id) 0 (fun u => rfl)
    (fun w hw => by cases hw)

/-- C4 counterexample: a dimension-1 perturbation against a dimension-2
starting point is silently broadcast, exactly the case the claim rules
out: the call raises no error, proceeds through the loop (2 iterator
invocations recorded) and returns a scalar result. -/
theorem claim4_counterexample :
    largest_lyapunov_exponent (countIter (fun _ => [(0:ℝ), 0])) [(0:ℝ), 0] 1 1 1 1
      (some [1]) false 0 = (.ok (.inl 0), 2) := by
  simp [largest_lyapunov_exponent, lleLoop, lleBlock, innerSteps, countIter,
    npAdd, npSub, npBroadcast, npNorm, rescaledPerturbation, averageOf,
    Real.sqrt_one, Real.log_zero]

/-- C4 amended: when the perturbation's dimension and the starting
point's dimension are incompatible under numpy's broadcasting rule
(unequal, and neither equal to 1), the call fails with the shape error at
the formation of the perturbed start, before any iterator call (the
iterator state is returned unchanged); but a dimension-1 perturbation
against a dimension-D > 1 starting point is silently broadcast and the
call proceeds normally (see the counterexample).  The in-place rescale of
the perturbation (line 45) still happens before the error is raised. -/
theorem claim4_amended_shape_error {S : Type} (f : Vec → S → Vec × S)
    {sp v : Vec} (δ : ℝ) (N T : ℕ) (dt : ℝ) (rc : Bool) (s : S)
    (h1 : v.length ≠ sp.length) (h2 : v.length ≠ 1) (h3 : sp.length ≠ 1) :
    largest_lyapunov_exponent f sp δ N T dt (some v) rc s
      = (.error NpError.shapeMismatch, s) := by
  have herr : npAdd sp (rescaledPerturbation δ v) = .error NpError.shapeMismatch :=
    npAdd_error (by rw [length_rescaled]; exact fun h => h1 h.symm)
      (by rw [length_rescaled]; exact h2) h3
  simp only [largest_lyapunov_exponent, Option.getD_some, herr]

/-- C4 amended witness: 3-dimensional perturbation against a
2-dimensional starting point errors with the iterator state unchanged. -/
theorem claim4_amended_witness :
    largest_lyapunov_exponent (pureIter id) [(1:ℝ), 2] 1 2 3 1 (some [1, 2, 3]) true ()
      = (.error NpError.shapeMismatch, ()) :=
  claim4_amended_shape_error (pureIter id) 1 2 3 1 true ()
    (by decide) (by decide) (by decide)

end

end DynSys
